import Mathlib

/-!
Verification of the envsubst core: the variable-reference scanner, the
substitutor and the extractor, shallowly embedded from src/main.rs.

Text is modelled as a list of characters (the Rust code iterates over
chars of a UTF-8 string). The process environment is modelled as an
abstract lookup function of type String → Option String, embedding
std::env::var whose failure (unset or non-unicode) is collapsed to none;
the code only ever observes it through unwrap_or_default, i.e. Option.getD
with the empty string. The allow-list HashSet is modelled as a list of
strings with membership as the contains test; extract_variables models
the HashSet-then-sort pipeline as dedup followed by insertionSort, which
produces the same sorted duplicate-free listing of the set.
-/

namespace Envsubst

/-- Embeds is_var_start: ASCII letter or underscore. -/
def is_var_start (ch : Char) : Bool :=
  ch.isAlpha || ch = '_'

/-- Embeds is_var_char: ASCII letter, ASCII digit, or underscore. -/
def is_var_char (ch : Char) : Bool :=
  ch.isAlphanum || ch = '_'

/-- Embeds consume_until: consume characters until the delimiter is found,
returning the consumed run and the remaining stream (the delimiter itself is
consumed when found; if it never occurs the whole stream is consumed). -/
def consume_until : List Char → Char → List Char × List Char
  | [], _ => ([], [])
  | c :: rest, d =>
    if c = d then ([], rest)
    else
      let p := consume_until rest d
      (c :: p.1, p.2)

/-- Embeds consume_var_name: consume a maximal run of name characters. -/
def consume_var_name : List Char → List Char × List Char
  | [] => ([], [])
  | c :: rest =>
    if is_var_char c then
      let p := consume_var_name rest
      (c :: p.1, p.2)
    else ([], c :: rest)

/-- Embeds parse_variable: called on the stream just after a consumed
dollar sign; yields (some (name, is_braced), remaining) on success and
(none, remaining) with the stream unchanged on failure. -/
def parse_variable : List Char → Option (List Char × Bool) × List Char
  | [] => (none, [])
  | c :: rest =>
    if c = '{' then
      let p := consume_until rest '}'
      (some (p.1, true), p.2)
    else if is_var_start c then
      let p := consume_var_name (c :: rest)
      if p.1 ≠ [] then (some (p.1, false), p.2) else (none, c :: rest)
    else (none, c :: rest)

/-- Embeds should_substitute: with an allow-list, membership decides; with
none, always substitute. -/
def should_substitute (var_name : String) (allowed_vars : Option (List String)) : Bool :=
  match allowed_vars with
  | some set => decide (var_name ∈ set)
  | none => true

/-- Embeds get_substitution_value: some (env value, defaulting to the empty
string when unbound) when substitution should happen, none otherwise. -/
def get_substitution_value (env : String → Option String) (var_name : String)
    (allowed_vars : Option (List String)) : Option String :=
  if should_substitute var_name allowed_vars then some ((env var_name).getD (String.mk []))
  else none

/-- Embeds reconstruct_variable: the original surface syntax, as characters. -/
def reconstruct_variable (var_name : List Char) (is_braced : Bool) : List Char :=
  if is_braced then '$' :: '{' :: (var_name ++ ['}'])
  else '$' :: var_name

theorem consume_until_len (cs : List Char) (d : Char) :
    (consume_until cs d).2.length ≤ cs.length := by
  induction cs with
  | nil => simp [consume_until]
  | cons c rest ih =>
    simp only [consume_until]
    split
    · simp
    · simpa using Nat.le_succ_of_le ih

theorem consume_var_name_len (cs : List Char) :
    (consume_var_name cs).2.length ≤ cs.length := by
  induction cs with
  | nil => simp [consume_var_name]
  | cons c rest ih =>
    simp only [consume_var_name]
    split
    · simpa using Nat.le_succ_of_le ih
    · simp

theorem parse_variable_len (cs : List Char) :
    (parse_variable cs).2.length ≤ cs.length := by
  cases cs with
  | nil => simp [parse_variable]
  | cons c rest =>
    simp only [parse_variable]
    split
    · simpa using Nat.le_succ_of_le (consume_until_len rest '}')
    · split
      · split
        · simpa using consume_var_name_len (c :: rest)
        · simp
      · simp

/-- Embeds the scanning loop of substitute_variables: copy literal
characters; on a dollar sign, parse; on success append the resolved value
or the reconstructed syntax, on failure append the literal dollar sign. -/
def substitute_go (env : String → Option String) (allowed_vars : Option (List String)) :
    List Char → List Char
  | [] => []
  | c :: rest =>
    if c = '$' then
      let p := parse_variable rest
      (match p.1 with
       | some nb =>
         match get_substitution_value env (String.mk nb.1) allowed_vars with
         | some value => value.data
         | none => reconstruct_variable nb.1 nb.2
       | none => [c]) ++ substitute_go env allowed_vars p.2
    else c :: substitute_go env allowed_vars rest
termination_by cs => cs.length
decreasing_by
  all_goals simp only [List.length_cons]
  all_goals first
    | omega
    | exact Nat.lt_succ_of_le (parse_variable_len rest)

/-- Embeds substitute_variables at the string level. -/
def substitute_variables (env : String → Option String) (input : String)
    (allowed_vars : Option (List String)) : String :=
  String.mk (substitute_go env allowed_vars input.data)

/-- Embeds the scanning loop of extract_variables: the names of recognized
references with a non-empty name, in scan order, duplicates included (the
HashSet insertion is applied afterwards). -/
def extract_names : List Char → List String
  | [] => []
  | c :: rest =>
    if c = '$' then
      let p := parse_variable rest
      (match p.1 with
       | some nb => if nb.1 ≠ [] then [String.mk nb.1] else []
       | none => []) ++ extract_names p.2
    else extract_names rest
termination_by cs => cs.length
decreasing_by
  all_goals simp only [List.length_cons]
  all_goals first
    | omega
    | exact Nat.lt_succ_of_le (parse_variable_len rest)

/-- Embeds extract_variables: the HashSet of collected names (dedup of the
in-order list) sorted ascending. -/
def extract_variables (input : String) : List String :=
  List.insertionSort (fun a b => a ≤ b) (extract_names input.data).dedup

/-- Characterizes inputs in which every occurrence of a dollar sign followed
by an opening brace is eventually followed by a closing brace, i.e. inputs
with no unterminated braced reference: on these the scanner reconstructs
every filtered-out reference byte-for-byte. -/
def braces_closed : List Char → Bool
  | [] => true
  | c :: rest =>
    (if c = '$' then
      match rest with
      | c2 :: r => if c2 = '{' then decide ('}' ∈ r) else true
      | [] => true
    else true) && braces_closed rest

theorem consume_var_name_append (cs : List Char) :
    (consume_var_name cs).1 ++ (consume_var_name cs).2 = cs := by
  induction cs with
  | nil => simp [consume_var_name]
  | cons c rest ih =>
    simp only [consume_var_name]
    split
    · simpa using ih
    · simp

theorem consume_until_append (cs : List Char) (d : Char) (h : d ∈ cs) :
    cs = (consume_until cs d).1 ++ d :: (consume_until cs d).2 := by
  induction cs with
  | nil => simp at h
  | cons c rest ih =>
    simp only [consume_until]
    split
    · rename_i he
      simp [he]
    · rename_i he
      have hm : d ∈ rest := by
        rcases List.mem_cons.mp h with h1 | h1
        · exact absurd h1.symm he
        · exact h1
      simpa using ih hm

theorem consume_until_no_delim (cs : List Char) (d : Char) (h : d ∉ cs) :
    consume_until cs d = (cs, []) := by
  induction cs with
  | nil => simp [consume_until]
  | cons c rest ih =>
    have hne : ¬c = d := fun he => h (he ▸ List.mem_cons_self c rest)
    have hm : d ∉ rest := fun hr => h (List.mem_cons_of_mem c hr)
    simp [consume_until, hne, ih hm]

theorem parse_variable_none_rem (cs rem : List Char) (h : parse_variable cs = (none, rem)) :
    rem = cs := by
  cases cs with
  | nil => simpa [parse_variable] using (congrArg Prod.snd h).symm
  | cons c rest =>
    simp only [parse_variable] at h
    split at h
    · simp at h
    · split at h
      · split at h
        · simp at h
        · simpa using (congrArg Prod.snd h).symm
      · simpa using (congrArg Prod.snd h).symm

theorem parse_variable_bare_split (cs name rem : List Char)
    (h : parse_variable cs = (some (name, false), rem)) : cs = name ++ rem := by
  cases cs with
  | nil => simp [parse_variable] at h
  | cons c rest =>
    simp only [parse_variable] at h
    split at h
    · simp at h
    · split at h
      · split at h
        · have h1 : (consume_var_name (c :: rest)).1 = name := by
            have := congrArg Prod.fst h
            simpa using (congrArg (fun o => o.map Prod.fst) (congrArg Prod.fst h))
          have h2 : (consume_var_name (c :: rest)).2 = rem := by
            simpa using congrArg Prod.snd h
          rw [← h1, ← h2, consume_var_name_append]
        · simp at h
      · simp at h

theorem parse_variable_braced_shape (cs name rem : List Char)
    (h : parse_variable cs = (some (name, true), rem)) :
    ∃ rest, cs = '{' :: rest ∧ consume_until rest '}' = (name, rem) := by
  cases cs with
  | nil => simp [parse_variable] at h
  | cons c rest =>
    simp only [parse_variable] at h
    split at h
    · rename_i he
      refine ⟨rest, by rw [he], ?_⟩
      have h1 : (consume_until rest '}').1 = name := by
        simpa using (congrArg (fun o => o.map Prod.fst) (congrArg Prod.fst h))
      have h2 : (consume_until rest '}').2 = rem := by
        simpa using congrArg Prod.snd h
      rw [Prod.ext_iff]
      exact ⟨h1, h2⟩
    · split at h
      · split at h
        · have := congrArg (fun o => o.map Prod.snd) (congrArg Prod.fst h)
          simp at this
        · simp at h
      · simp at h

theorem substitute_go_nil (env : String → Option String) (a : Option (List String)) :
    substitute_go env a [] = [] := by
  simp [substitute_go]

theorem substitute_go_cons_lit (env : String → Option String) (a : Option (List String))
    (c : Char) (rest : List Char) (h : ¬c = '$') :
    substitute_go env a (c :: rest) = c :: substitute_go env a rest := by
  rw [substitute_go]
  simp [h]

theorem substitute_go_dollar_some (env : String → Option String) (a : Option (List String))
    (rest name rem : List Char) (braced : Bool)
    (hp : parse_variable rest = (some (name, braced), rem)) :
    substitute_go env a ('$' :: rest) =
      (match get_substitution_value env (String.mk name) a with
       | some value => value.data
       | none => reconstruct_variable name braced) ++ substitute_go env a rem := by
  rw [substitute_go]
  simp [hp]

theorem substitute_go_dollar_none (env : String → Option String) (a : Option (List String))
    (rest rem : List Char) (hp : parse_variable rest = (none, rem)) :
    substitute_go env a ('$' :: rest) = '$' :: substitute_go env a rem := by
  rw [substitute_go]
  simp [hp]

theorem extract_names_nil : extract_names [] = [] := by
  simp [extract_names]

theorem extract_names_cons_lit (c : Char) (rest : List Char) (h : ¬c = '$') :
    extract_names (c :: rest) = extract_names rest := by
  rw [extract_names]
  simp [h]

theorem extract_names_dollar_some (rest name rem : List Char) (braced : Bool)
    (hp : parse_variable rest = (some (name, braced), rem)) :
    extract_names ('$' :: rest) =
      (if name ≠ [] then String.mk name :: extract_names rem else extract_names rem) := by
  rw [extract_names]
  simp only [hp]
  by_cases hn : name = [] <;> simp [hn]

theorem extract_names_dollar_none (rest rem : List Char)
    (hp : parse_variable rest = (none, rem)) :
    extract_names ('$' :: rest) = extract_names rem := by
  rw [extract_names]
  simp [hp]

theorem parse_variable_rem_len (cs rem : List Char) (o : Option (List Char × Bool))
    (h : parse_variable cs = (o, rem)) : rem.length ≤ cs.length := by
  have hl := parse_variable_len cs
  rw [h] at hl
  exact hl

theorem braces_closed_tail (c : Char) (rest : List Char)
    (h : braces_closed (c :: rest) = true) : braces_closed rest = true := by
  simp only [braces_closed, Bool.and_eq_true] at h
  exact h.2

theorem braces_closed_append (l1 l2 : List Char) (h : braces_closed (l1 ++ l2) = true) :
    braces_closed l2 = true := by
  induction l1 with
  | nil => exact h
  | cons c r ih => exact ih (braces_closed_tail c (r ++ l2) h)

theorem braces_closed_braced_mem (r : List Char)
    (h : braces_closed ('$' :: '{' :: r) = true) : '}' ∈ r := by
  simp only [braces_closed, Bool.and_eq_true] at h
  have h1 := h.1
  simp at h1
  exact h1

theorem get_substitution_value_congr (e1 e2 : String → Option String)
    (a : Option (List String))
    (h : ∀ s, should_substitute s a = true →
      (e1 s).getD (String.mk []) = (e2 s).getD (String.mk [])) (s : String) :
    get_substitution_value e1 s a = get_substitution_value e2 s a := by
  unfold get_substitution_value
  by_cases hs : should_substitute s a = true
  · simp [hs, h s hs]
  · simp [hs]

theorem substitute_go_congr (e1 e2 : String → Option String) (a : Option (List String))
    (h : ∀ s, should_substitute s a = true →
      (e1 s).getD (String.mk []) = (e2 s).getD (String.mk [])) :
    ∀ n : Nat, ∀ cs : List Char, cs.length ≤ n →
      substitute_go e1 a cs = substitute_go e2 a cs := by
  intro n
  induction n with
  | zero =>
    intro cs hl
    match cs with
    | [] => rw [substitute_go_nil, substitute_go_nil]
    | c :: rest => simp at hl
  | succ n ih =>
    intro cs hl
    match cs with
    | [] => rw [substitute_go_nil, substitute_go_nil]
    | c :: rest =>
      simp only [List.length_cons] at hl
      by_cases hc : c = '$'
      · subst hc
        cases hp : parse_variable rest with
        | mk o rem =>
          have hlen : rem.length ≤ n :=
            Nat.le_trans (parse_variable_rem_len rest rem o hp) (Nat.le_of_succ_le_succ hl)
          cases o with
          | none =>
            rw [substitute_go_dollar_none e1 a rest rem hp,
              substitute_go_dollar_none e2 a rest rem hp, ih rem hlen]
          | some nb =>
            obtain ⟨name, braced⟩ := nb
            rw [substitute_go_dollar_some e1 a rest name rem braced hp,
              substitute_go_dollar_some e2 a rest name rem braced hp,
              get_substitution_value_congr e1 e2 a h (String.mk name), ih rem hlen]
      · rw [substitute_go_cons_lit e1 a c rest hc, substitute_go_cons_lit e2 a c rest hc,
          ih rest (Nat.le_of_succ_le_succ hl)]

theorem substitute_go_no_dollar (env : String → Option String) (a : Option (List String)) :
    ∀ cs : List Char, '$' ∉ cs → substitute_go env a cs = cs := by
  intro cs
  induction cs with
  | nil => intro _; exact substitute_go_nil env a
  | cons c rest ih =>
    intro hno
    have hc : ¬c = '$' := fun he => hno (he ▸ List.mem_cons_self c rest)
    rw [substitute_go_cons_lit env a c rest hc,
      ih (fun hm => hno (List.mem_cons_of_mem c hm))]

theorem extract_names_no_dollar : ∀ cs : List Char, '$' ∉ cs → extract_names cs = [] := by
  intro cs
  induction cs with
  | nil => intro _; exact extract_names_nil
  | cons c rest ih =>
    intro hno
    have hc : ¬c = '$' := fun he => hno (he ▸ List.mem_cons_self c rest)
    rw [extract_names_cons_lit c rest hc, ih (fun hm => hno (List.mem_cons_of_mem c hm))]

theorem extract_names_ne_empty :
    ∀ n : Nat, ∀ cs : List Char, cs.length ≤ n → String.mk [] ∉ extract_names cs := by
  intro n
  induction n with
  | zero =>
    intro cs hl
    match cs with
    | [] => rw [extract_names_nil]; exact List.not_mem_nil _
    | c :: rest => simp at hl
  | succ n ih =>
    intro cs hl
    match cs with
    | [] => rw [extract_names_nil]; exact List.not_mem_nil _
    | c :: rest =>
      simp only [List.length_cons] at hl
      by_cases hc : c = '$'
      · subst hc
        cases hp : parse_variable rest with
        | mk o rem =>
          have hlen : rem.length ≤ n :=
            Nat.le_trans (parse_variable_rem_len rest rem o hp) (Nat.le_of_succ_le_succ hl)
          cases o with
          | none =>
            rw [extract_names_dollar_none rest rem hp]
            exact ih rem hlen
          | some nb =>
            obtain ⟨name, braced⟩ := nb
            rw [extract_names_dollar_some rest name rem braced hp]
            by_cases hn : name = []
            · simp [hn]
              exact ih rem hlen
            · simp [hn]
              refine ⟨fun hbad => hn ?_, ih rem hlen⟩
              simpa using (congrArg String.data hbad).symm
      · rw [extract_names_cons_lit c rest hc]
        exact ih rest (Nat.le_of_succ_le_succ hl)

theorem substitute_go_empty_allow (env : String → Option String) :
    ∀ n : Nat, ∀ cs : List Char, cs.length ≤ n → braces_closed cs = true →
      substitute_go env (some []) cs = cs := by
  intro n
  induction n with
  | zero =>
    intro cs hl _
    match cs with
    | [] => exact substitute_go_nil env (some [])
    | c :: rest => simp at hl
  | succ n ih =>
    intro cs hl hb
    match cs with
    | [] => exact substitute_go_nil env (some [])
    | c :: rest =>
      simp only [List.length_cons] at hl
      by_cases hc : c = '$'
      · subst hc
        cases hp : parse_variable rest with
        | mk o rem =>
          have hlen : rem.length ≤ n :=
            Nat.le_trans (parse_variable_rem_len rest rem o hp) (Nat.le_of_succ_le_succ hl)
          cases o with
          | none =>
            have hr : rem = rest := parse_variable_none_rem rest rem hp
            rw [substitute_go_dollar_none env (some []) rest rem hp, hr,
              ih rest (hr ▸ hlen) (braces_closed_tail _ _ hb)]
          | some nb =>
            obtain ⟨name, braced⟩ := nb
            have hv : get_substitution_value env (String.mk name) (some []) = none := by
              simp [get_substitution_value, should_substitute]
            rw [substitute_go_dollar_some env (some []) rest name rem braced hp, hv]
            cases braced with
            | false =>
              have hsplit := parse_variable_bare_split rest name rem hp
              have hbrem : braces_closed rem = true :=
                braces_closed_append name rem
                  (hsplit ▸ braces_closed_tail _ _ hb)
              rw [ih rem hlen hbrem, reconstruct_variable]
              simp [hsplit]
            | true =>
              obtain ⟨rest2, hcs2, hcu⟩ := parse_variable_braced_shape rest name rem hp
              subst hcs2
              have hmem : '}' ∈ rest2 := braces_closed_braced_mem rest2 hb
              have happ := consume_until_append rest2 '}' hmem
              rw [hcu] at happ
              simp only [] at happ
              have hbrem : braces_closed rem = true := by
                have h2 : braces_closed rest2 = true :=
                  braces_closed_tail _ _ (braces_closed_tail _ _ hb)
                rw [happ] at h2
                exact braces_closed_tail _ _ (braces_closed_append name ('}' :: rem) h2)
              rw [ih rem hlen hbrem, reconstruct_variable]
              simp [happ]
      · rw [substitute_go_cons_lit env (some []) c rest hc,
          ih rest (Nat.le_of_succ_le_succ hl) (braces_closed_tail _ _ hb)]

/-- C1: whenever the scanner recognizes a reference whose name is not in the
allow-list, the substitutor emits exactly the reconstructed surface syntax
followed by the output for the remaining stream; and for a bare reference,
or a braced reference whose closing brace exists, that reconstruction is
byte-for-byte the consumed input, so the reference round-trips unchanged. -/
theorem c1_filtered_roundtrip (env : String → Option String) (allow : List String)
    (cs name rem : List Char) (braced : Bool)
    (hp : parse_variable cs = (some (name, braced), rem))
    (hn : String.mk name ∉ allow) :
    substitute_go env (some allow) ('$' :: cs)
      = reconstruct_variable name braced ++ substitute_go env (some allow) rem
    ∧ (braced = false → '$' :: cs = reconstruct_variable name braced ++ rem)
    ∧ (braced = true → '}' ∈ cs → '$' :: cs = reconstruct_variable name braced ++ rem) := by
  refine ⟨?_, ?_, ?_⟩
  · rw [substitute_go_dollar_some env (some allow) cs name rem braced hp]
    have hv : get_substitution_value env (String.mk name) (some allow) = none := by
      simp [get_substitution_value, should_substitute, hn]
    rw [hv]
  · intro hb
    subst hb
    have hsplit := parse_variable_bare_split cs name rem hp
    rw [reconstruct_variable]
    simp [hsplit]
  · intro hb hmem
    subst hb
    obtain ⟨rest, hcs, hcu⟩ := parse_variable_braced_shape cs name rem hp
    subst hcs
    have hmem2 : '}' ∈ rest := by
      rcases List.mem_cons.mp hmem with h1 | h1
      · exact absurd h1 (by decide)
      · exact h1
    have happ := consume_until_append rest '}' hmem2
    rw [hcu] at happ
    simp only [] at happ
    rw [reconstruct_variable]
    simp [happ]

theorem c1_filtered_roundtrip_witness :
    substitute_go (fun _ => some (String.mk ['v'])) (some [String.mk ['B']]) ('$' :: ['A'])
      = reconstruct_variable ['A'] false
        ++ substitute_go (fun _ => some (String.mk ['v'])) (some [String.mk ['B']]) []
    ∧ (false = false → '$' :: ['A'] = reconstruct_variable ['A'] false ++ [])
    ∧ (false = true → '}' ∈ ['A'] → '$' :: ['A'] = reconstruct_variable ['A'] false ++ []) :=
  c1_filtered_roundtrip (fun _ => some (String.mk ['v'])) [String.mk ['B']]
    ['A'] ['A'] [] false (by decide) (by decide)

/-- C2, counterexample: with the empty allow-list an unterminated braced
reference is reconstructed with a closing brace that the input did not
contain, so substitution is not the identity. -/
theorem c2_counterexample :
    substitute_variables (fun _ => none) (String.mk ['$', '{', 'A']) (some [])
      ≠ String.mk ['$', '{', 'A'] := by
  have h1 : substitute_variables (fun _ => none) (String.mk ['$', '{', 'A']) (some [])
      = String.mk ['$', '{', 'A', '}'] := by
    simp [substitute_variables, substitute_go, parse_variable, consume_until,
      get_substitution_value, should_substitute, reconstruct_variable]
  rw [h1]
  decide

/-- C2, amended: with the empty allow-list nothing is substituted and the
input is reproduced unchanged, provided every occurrence of a dollar sign
followed by an opening brace has a later closing brace (no unterminated
braced reference); on an unterminated braced reference the output instead
appends the missing closing brace. -/
theorem c2_amended_identity (env : String → Option String) (t : String)
    (h : braces_closed t.data = true) :
    substitute_variables env t (some []) = t := by
  unfold substitute_variables
  rw [substitute_go_empty_allow env t.data.length t.data le_rfl h]

theorem c2_amended_identity_witness :
    substitute_variables (fun _ => none) (String.mk ['$', '{', 'A', '}', ' ', '$', 'B']) (some [])
      = String.mk ['$', '{', 'A', '}', ' ', '$', 'B'] :=
  c2_amended_identity (fun _ => none) (String.mk ['$', '{', 'A', '}', ' ', '$', 'B']) (by decide)

/-- C3: a dollar sign followed by end of stream, or by a character that is
neither an opening brace nor a name-start character (digits included), is
recognized as no reference: the scanner consumes nothing, the substitutor
emits the literal dollar sign and resumes at the very next character, and a
trailing dollar sign is output unchanged. -/
theorem c3_literal_dollar (env : String → Option String) (a : Option (List String))
    (c : Char) (rest : List Char) (h1 : is_var_start c = false) (h2 : ¬c = '{') :
    parse_variable (c :: rest) = (none, c :: rest)
    ∧ substitute_go env a ('$' :: c :: rest) = '$' :: substitute_go env a (c :: rest)
    ∧ parse_variable [] = (none, [])
    ∧ substitute_go env a ['$'] = ['$'] := by
  have hp : parse_variable (c :: rest) = (none, c :: rest) := by
    simp [parse_variable, h2, h1]
  refine ⟨hp, substitute_go_dollar_none env a (c :: rest) (c :: rest) hp,
    by simp [parse_variable], ?_⟩
  rw [substitute_go_dollar_none env a [] [] (by simp [parse_variable]), substitute_go_nil]

theorem c3_literal_dollar_witness :
    (parse_variable ('-' :: ['x']) = (none, '-' :: ['x'])
      ∧ substitute_go (fun _ => none) none ('$' :: '-' :: ['x'])
          = '$' :: substitute_go (fun _ => none) none ('-' :: ['x'])
      ∧ parse_variable [] = (none, [])
      ∧ substitute_go (fun _ => none) none ['$'] = ['$'])
    ∧ substitute_go (fun _ => none) none ['$', '-', 'x'] = ['$', '-', 'x'] := by
  refine ⟨c3_literal_dollar (fun _ => none) none '-' ['x'] (by decide) (by decide), ?_⟩
  simp [substitute_go, parse_variable, is_var_start]

/-- C4: a braced reference with no closing brace consumes the whole
remaining stream as the name, without error; in particular an input
consisting of a dollar sign, an opening brace and the name VAR, under an
environment binding VAR to x, substitutes to exactly x. -/
theorem c4_unterminated_brace (env : String → Option String) (rest : List Char)
    (h : '}' ∉ rest) :
    parse_variable ('{' :: rest) = (some (rest, true), [])
    ∧ substitute_go env none ('$' :: '{' :: rest)
        = ((env (String.mk rest)).getD (String.mk [])).data
    ∧ (∀ e : String → Option String, e (String.mk ['V', 'A', 'R']) = some (String.mk ['x']) →
        substitute_variables e (String.mk ['$', '{', 'V', 'A', 'R']) none = String.mk ['x']) := by
  have hp : parse_variable ('{' :: rest) = (some (rest, true), []) := by
    simp [parse_variable, consume_until_no_delim rest '}' h]
  refine ⟨hp, ?_, ?_⟩
  · rw [substitute_go_dollar_some env none ('{' :: rest) rest [] true hp]
    simp [get_substitution_value, should_substitute, substitute_go_nil]
  · intro e he
    have hp2 : parse_variable ['{', 'V', 'A', 'R'] = (some (['V', 'A', 'R'], true), []) := by
      decide
    unfold substitute_variables
    rw [show (String.mk ['$', '{', 'V', 'A', 'R']).data = '$' :: ['{', 'V', 'A', 'R'] from rfl,
      substitute_go_dollar_some e none ['{', 'V', 'A', 'R'] ['V', 'A', 'R'] [] true hp2]
    simp [get_substitution_value, should_substitute, he, substitute_go_nil]

theorem c4_unterminated_brace_witness :
    parse_variable ('{' :: ['V', 'A', 'R']) = (some (['V', 'A', 'R'], true), [])
    ∧ substitute_go (fun s => if s = String.mk ['V', 'A', 'R'] then some (String.mk ['x']) else none)
        none ('$' :: '{' :: ['V', 'A', 'R'])
        = (((fun s => if s = String.mk ['V', 'A', 'R'] then some (String.mk ['x']) else none)
            (String.mk ['V', 'A', 'R'])).getD (String.mk [])).data
    ∧ (∀ e : String → Option String, e (String.mk ['V', 'A', 'R']) = some (String.mk ['x']) →
        substitute_variables e (String.mk ['$', '{', 'V', 'A', 'R']) none = String.mk ['x']) :=
  c4_unterminated_brace
    (fun s => if s = String.mk ['V', 'A', 'R'] then some (String.mk ['x']) else none)
    ['V', 'A', 'R'] (by decide)

/-- C5: list_variables returns the names of recognized references with a
non-empty name as a duplicate-free sequence sorted strictly ascending;
the empty name never appears, and repeated references to one name (bare
or braced) collapse to a single entry, as on the input with two bare and
one braced reference to A. -/
theorem c5_list_variables (t : String) :
    (extract_variables t).Sorted (fun a b => a < b)
    ∧ (extract_variables t).Nodup
    ∧ (∀ s, s ∈ extract_variables t ↔ s ∈ extract_names t.data)
    ∧ String.mk [] ∉ extract_variables t
    ∧ extract_variables (String.mk ['$', 'A', ' ', '$', 'A', ' ', '$', '{', 'A', '}'])
        = [String.mk ['A']] := by
  have hperm : List.Perm (extract_variables t) (extract_names t.data).dedup :=
    List.perm_insertionSort _ _
  have hnodup : (extract_variables t).Nodup := hperm.symm.nodup (List.nodup_dedup _)
  have hsle : (extract_variables t).Sorted (fun a b => a ≤ b) :=
    List.sorted_insertionSort _ _
  have hmem : ∀ s, s ∈ extract_variables t ↔ s ∈ extract_names t.data := by
    intro s
    rw [hperm.mem_iff, List.mem_dedup]
  refine ⟨List.Sorted.lt_of_le hsle hnodup, hnodup, hmem, ?_, ?_⟩
  · rw [hmem (String.mk [])]
    exact extract_names_ne_empty t.data.length t.data le_rfl
  · simp [extract_variables, extract_names, parse_variable, consume_until, consume_var_name,
      is_var_start, is_var_char, List.dedup, List.insertionSort]

/-- C6: for an allowed name that is unbound in the environment the lookup
yields the empty string, the whole substitution output is indistinguishable
from that name being bound to the empty value, and under the open policy an
empty braced reference substitutes to the empty string whenever the empty
name is unbound (as it always is in a process environment). -/
theorem c6_unbound_is_empty (env : String → Option String) (name : String)
    (a : Option (List String)) (hs : should_substitute name a = true)
    (hu : env name = none) :
    get_substitution_value env name a = some (String.mk [])
    ∧ (∀ t : String, substitute_variables env t a =
        substitute_variables (fun s => if s = name then some (String.mk []) else env s) t a)
    ∧ (∀ e : String → Option String, e (String.mk []) = none →
        substitute_variables e (String.mk ['$', '{', '}']) none = String.mk []) := by
  refine ⟨?_, ?_, ?_⟩
  · simp [get_substitution_value, hs, hu]
  · intro t
    unfold substitute_variables
    congr 1
    refine substitute_go_congr env _ a ?_ t.data.length t.data le_rfl
    intro s _
    by_cases he : s = name
    · subst he
      simp [hu]
    · simp [he]
  · intro e he
    simp [substitute_variables, substitute_go, parse_variable, consume_until,
      get_substitution_value, should_substitute, he]

theorem c6_unbound_is_empty_witness :
    get_substitution_value (fun _ => none) (String.mk ['X']) none = some (String.mk []) :=
  (c6_unbound_is_empty (fun _ => none) (String.mk ['X']) none (by decide) rfl).1

/-- C7: on text containing no dollar sign, substitution with the open
policy is the identity and extraction returns the empty list. -/
theorem c7_literal_identity (env : String → Option String) (t : String)
    (h : '$' ∉ t.data) :
    substitute_variables env t none = t ∧ extract_variables t = [] := by
  constructor
  · unfold substitute_variables
    rw [substitute_go_no_dollar env none t.data h]
  · unfold extract_variables
    rw [extract_names_no_dollar t.data h]
    rfl

theorem c7_literal_identity_witness :
    substitute_variables (fun _ => none) (String.mk ['h', 'i']) none = String.mk ['h', 'i']
    ∧ extract_variables (String.mk ['h', 'i']) = [] :=
  c7_literal_identity (fun _ => none) (String.mk ['h', 'i']) (by decide)

/-- C8: when the character right after the dollar sign is a name-start
character, the bare-form scan succeeds with a non-empty name (the maximal
run, which begins with that character), so the empty-name fallback branch
of parse_variable is unreachable. -/
theorem c8_bare_nonempty (c : Char) (rest : List Char) (h : is_var_start c = true) :
    parse_variable (c :: rest)
      = (some ((consume_var_name (c :: rest)).1, false), (consume_var_name (c :: rest)).2)
    ∧ (consume_var_name (c :: rest)).1 ≠ [] := by
  have hvc : is_var_char c = true := by
    simp only [is_var_start, Bool.or_eq_true, decide_eq_true_eq] at h
    rcases h with h | h
    · simp [is_var_char, Char.isAlphanum, h]
    · simp [is_var_char, h]
  have hne : ¬c = '{' := by
    intro he
    subst he
    exact absurd h (by decide)
  have hcons : consume_var_name (c :: rest)
      = (c :: (consume_var_name rest).1, (consume_var_name rest).2) := by
    simp [consume_var_name, hvc]
  constructor
  · simp [parse_variable, hne, h, hcons]
  · rw [hcons]
    simp

theorem c8_bare_nonempty_witness :
    parse_variable ('a' :: [])
      = (some ((consume_var_name ('a' :: [])).1, false), (consume_var_name ('a' :: [])).2)
    ∧ (consume_var_name ('a' :: [])).1 ≠ [] :=
  c8_bare_nonempty 'a' [] (by decide)

/-- C9: substitution and extraction are total functions of their input:
every finite input string yields a well-defined output (the embedding is
accepted by well-founded recursion on the stream length, so the scanning
loops terminate on every input, however malformed). -/
theorem c9_total (env : String → Option String) (a : Option (List String)) (t : String) :
    ∃ r : String, ∃ l : List String,
      substitute_variables env t a = r ∧ extract_variables t = l :=
  ⟨_, _, rfl, rfl⟩

/-- C10: with an allow-list present, the output depends only on the
environment values of allowed names: two environments agreeing on every
member of the allow-list produce identical output on every input. -/
theorem c10_noninterference (allow : List String) (e1 e2 : String → Option String)
    (h : ∀ s, s ∈ allow → e1 s = e2 s) (t : String) :
    substitute_variables e1 t (some allow) = substitute_variables e2 t (some allow) := by
  unfold substitute_variables
  congr 1
  refine substitute_go_congr e1 e2 (some allow) ?_ t.data.length t.data le_rfl
  intro s hs
  have hmem : s ∈ allow := by
    simpa [should_substitute] using hs
  rw [h s hmem]

theorem c10_noninterference_witness :
    substitute_variables
      (fun s => if s = String.mk ['A'] then some (String.mk ['x']) else some (String.mk ['y']))
      (String.mk ['$', 'A', ' ', '$', 'B']) (some [String.mk ['A']])
    = substitute_variables
      (fun s => if s = String.mk ['A'] then some (String.mk ['x']) else none)
      (String.mk ['$', 'A', ' ', '$', 'B']) (some [String.mk ['A']]) :=
  c10_noninterference [String.mk ['A']]
    (fun s => if s = String.mk ['A'] then some (String.mk ['x']) else some (String.mk ['y']))
    (fun s => if s = String.mk ['A'] then some (String.mk ['x']) else none)
    (by
      intro s hs
      rw [List.mem_singleton] at hs
      subst hs
      simp)
    (String.mk ['$', 'A', ' ', '$', 'B'])

end Envsubst
